/-
  Verification development for the build script `bin/build.js` of the
  `fs-developer-starter` repository.

  The script wires four concerns together:
    * a manifest post-processor (`generatePackageJsonPlugin`) that reads the
      project `package.json`, deletes the keys `scripts`, `devDependencies`,
      `files`, `publishConfig`, sets `browser` to `"index.js"`, and writes the
      result to `dist/package.json`;
    * a recursive directory copier (`copyRecursive` inside `copyPublicPlugin`)
      that copies the optional `public/` tree into `dist/`;
    * a build-output reporter (`logServedFiles` with its inner `getFiles`)
      that lists the emitted files and prints import suggestions;
    * plugin registration on the esbuild context (production-only plugins).

  This file gives a shallow embedding of those parts and proves the stated
  properties about them.  JSON objects are modelled as ordered association
  lists (JavaScript objects preserve string-key insertion order); directory
  trees are modelled by the inductive `Node`; file paths are modelled as
  their separator-separated segment lists, joined back into strings exactly
  where the script manipulates path strings.
-/
import Mathlib

namespace BuildScript

/-! ### JSON values and manifests

`JSON.parse` produces nested string-keyed objects; the manifest transformer
only touches the top level, but values can be arbitrary JSON data. -/

inductive Json where
  | str (s : String) : Json
  | num (n : Int) : Json
  | bool (b : Bool) : Json
  | null : Json
  | arr (elems : List Json) : Json
  | obj (fields : List (String × Json)) : Json

/-- A parsed manifest: the top-level object of `package.json`, as an ordered
association list of string keys and JSON values. -/
abbrev Manifest := List (String × Json)

/-- Property read `obj[k]`: the value at the first occurrence of key `k`. -/
def lookupKey : Manifest → String → Option Json
  | [], _ => none
  | (k', v) :: m, k => if k' = k then some v else lookupKey m k

/-- JavaScript `delete obj[k]` (removes the key, preserving the order of the
remaining keys), as in lines 37-40 of `bin/build.js`. -/
def deleteKey (m : Manifest) (k : String) : Manifest :=
  m.filter (fun e => e.1 != k)

/-- JavaScript `obj[k] = v`: replace the value at an existing key in place,
or append the key at the end, as in line 41 of `bin/build.js`. -/
def setKey : Manifest → String → Json → Manifest
  | [], k, v => [(k, v)]
  | (k', v') :: m, k, v =>
      if k' = k then (k, v) :: m else (k', v') :: setKey m k v

/-- The manifest transformation of `generatePackageJsonPlugin`
(`bin/build.js` lines 37-41): delete `scripts`, `devDependencies`, `files`,
`publishConfig`, then set `browser` to the literal string `"index.js"`. -/
def transformManifest (m : Manifest) : Manifest :=
  setKey
    (deleteKey (deleteKey (deleteKey (deleteKey m "scripts") "devDependencies")
      "files") "publishConfig")
    "browser" (Json.str "index.js")

theorem lookupKey_deleteKey (m : Manifest) (d k : String) :
    lookupKey (deleteKey m d) k = if k = d then none else lookupKey m k := by
  induction m with
  | nil => simp [deleteKey, lookupKey]
  | cons e m ih =>
    obtain ⟨k', v⟩ := e
    simp only [deleteKey, List.filter_cons] at ih ⊢
    rcases eq_or_ne k' d with h1 | h1
    · subst h1
      rcases eq_or_ne k k' with h2 | h2
      · subst h2; simp [lookupKey, ih]
      · simp [lookupKey, ih, h2, Ne.symm h2]
    · rcases eq_or_ne k' k with h2 | h2
      · subst h2
        simp [lookupKey, h1, ih]
      · simp [lookupKey, h1, h2, ih]

theorem lookupKey_setKey (m : Manifest) (s : String) (v : Json) (k : String) :
    lookupKey (setKey m s v) k = if s = k then some v else lookupKey m k := by
  induction m with
  | nil => simp [setKey, lookupKey]
  | cons e m ih =>
    obtain ⟨k', v'⟩ := e
    rcases eq_or_ne k' s with h1 | h1
    · subst h1
      rcases eq_or_ne k' k with h2 | h2
      · subst h2; simp [setKey, lookupKey]
      · simp [setKey, lookupKey, h2]
    · rcases eq_or_ne k' k with h2 | h2
      · subst h2
        simp [setKey, lookupKey, h1, Ne.symm h1]
      · simp [setKey, lookupKey, h1, h2, ih]

/-- C1: the manifest post-processor removes `scripts`, `devDependencies`,
`files` and `publishConfig`, maps `browser` to the literal string
`"index.js"`, and preserves the value of every other key of the input
manifest unchanged. -/
theorem transformManifest_spec (m : Manifest) :
    lookupKey (transformManifest m) "scripts" = none ∧
    lookupKey (transformManifest m) "devDependencies" = none ∧
    lookupKey (transformManifest m) "files" = none ∧
    lookupKey (transformManifest m) "publishConfig" = none ∧
    lookupKey (transformManifest m) "browser" = some (Json.str "index.js") ∧
    (∀ k : String, k ≠ "scripts" → k ≠ "devDependencies" → k ≠ "files" →
      k ≠ "publishConfig" → k ≠ "browser" →
      lookupKey (transformManifest m) k = lookupKey m k) := by
  unfold transformManifest
  refine ⟨?_, ?_, ?_, ?_, ?_, ?_⟩
  · simp [lookupKey_setKey, lookupKey_deleteKey]
  · simp [lookupKey_setKey, lookupKey_deleteKey]
  · simp [lookupKey_setKey, lookupKey_deleteKey]
  · simp [lookupKey_setKey, lookupKey_deleteKey]
  · simp [lookupKey_setKey]
  · intro k h1 h2 h3 h4 h5
    simp [lookupKey_setKey, lookupKey_deleteKey, h1, h2, h3, h4, Ne.symm h5]

/-- Witness for C1 at a concrete manifest: the `version` key survives with
its original value. -/
theorem transformManifest_spec_witness :
    lookupKey (transformManifest [("name", Json.str "pkg"), ("scripts", Json.obj []),
      ("version", Json.str "1.0.0")]) "version" = some (Json.str "1.0.0") :=
  ((transformManifest_spec [("name", Json.str "pkg"), ("scripts", Json.obj []),
      ("version", Json.str "1.0.0")]).2.2.2.2.2 "version" (by decide) (by decide)
    (by decide) (by decide) (by decide)).trans rfl

/-- The combined effect on keys of the four `delete` statements: an entry
survives exactly when its key is none of the four deleted keys. -/
def keepKey (e : String × Json) : Bool :=
  e.1 != "scripts" && e.1 != "devDependencies" && e.1 != "files" &&
    e.1 != "publishConfig"

theorem deleteChain_eq_filter (m : Manifest) :
    deleteKey (deleteKey (deleteKey (deleteKey m "scripts") "devDependencies")
      "files") "publishConfig" = m.filter keepKey := by
  induction m with
  | nil => rfl
  | cons e m ih =>
    obtain ⟨k, v⟩ := e
    by_cases h1 : k = "scripts" <;> by_cases h2 : k = "devDependencies" <;>
      by_cases h3 : k = "files" <;> by_cases h4 : k = "publishConfig" <;>
      simp_all [deleteKey, keepKey, List.filter_cons]

theorem transform_eq_filter (m : Manifest) :
    transformManifest m = setKey (m.filter keepKey) "browser" (Json.str "index.js") := by
  unfold transformManifest
  rw [deleteChain_eq_filter]

theorem filter_keepKey_idem (m : Manifest) :
    (m.filter keepKey).filter keepKey = m.filter keepKey := by
  induction m with
  | nil => rfl
  | cons e m ih =>
    by_cases h : keepKey e <;> simp [List.filter_cons, h, ih]

theorem filter_setKey (m : Manifest) (v : Json) :
    (setKey m "browser" v).filter keepKey = setKey (m.filter keepKey) "browser" v := by
  induction m with
  | nil => simp [setKey, List.filter_cons, keepKey]
  | cons e m ih =>
    obtain ⟨k, w⟩ := e
    rcases eq_or_ne k "browser" with h1 | h1
    · subst h1
      simp [setKey, List.filter_cons, keepKey]
    · by_cases hk : keepKey (k, w)
      · simp [setKey, h1, List.filter_cons, hk, ih]
      · simp [setKey, h1, List.filter_cons, hk, ih]

theorem setKey_setKey (m : Manifest) (k : String) (v v' : Json) :
    setKey (setKey m k v) k v' = setKey m k v' := by
  induction m with
  | nil => simp [setKey]
  | cons e m ih =>
    obtain ⟨k', w⟩ := e
    rcases eq_or_ne k' k with h1 | h1
    · subst h1; simp [setKey]
    · simp [setKey, h1, ih]

/-- C7: the manifest post-processor's transformation is idempotent; since the
bytes written to `dist/package.json` are a pure function (2-space-indented
`JSON.stringify`) of the transformed manifest, two runs from the same source
manifest write byte-identical output. -/
theorem transformManifest_idempotent (m : Manifest) :
    transformManifest (transformManifest m) = transformManifest m := by
  rw [transform_eq_filter m, transform_eq_filter, filter_setKey,
    filter_keepKey_idem, setKey_setKey]

/-! ### Directory trees and the recursive copier

`copyRecursive` (`bin/build.js` lines 94-108) enumerates the children of the
source directory, creates the destination directory (`mkdir` with
`recursive: true`), and then, child by child in enumeration order, recurses
into subdirectories and copies files byte-for-byte (`copyFile`, which
overwrites an existing destination file).  A failing filesystem operation
rejects the whole copy at that point (`Except.error`): `mkdir` fails when a
file occupies the destination path, `copyFile` fails when a directory does. -/

/-- A filesystem node: a regular file with its byte contents, or a directory
with its named children, listed in `fs.readdir` enumeration order. -/
inductive Node where
  | file (content : List Nat) : Node
  | dir (entries : List (String × Node)) : Node

/-- Entry names are distinct at every level of a directory tree, as the
filesystem guarantees for real directories. -/
def wfDir : List (String × Node) → Bool
  | [] => true
  | (n, .file _) :: es => es.all (fun e => e.1 != n) && wfDir es
  | (n, .dir ses) :: es => es.all (fun e => e.1 != n) && wfDir ses && wfDir es

/-- The child of a directory with the given name, if any. -/
def lookupEntry : List (String × Node) → String → Option Node
  | [], _ => none
  | (m, w) :: es, n => if m = n then some w else lookupEntry es n

/-- Writing a child into a directory: replace the existing child of that
name, or add the child if the name is fresh. -/
def setEntry : List (String × Node) → String → Node → List (String × Node)
  | [], n, v => [(n, v)]
  | (m, w) :: es, n, v =>
      if m = n then (n, v) :: es else (m, w) :: setEntry es n v

/-- The byte contents of the regular file at a relative path below a
directory, or `none` when no such file exists. -/
def findFile : List (String × Node) → List String → Option (List Nat)
  | [], _ => none
  | (m, .file c) :: es, n :: rest =>
      if m = n then (if rest = [] then some c else none)
      else findFile es (n :: rest)
  | (m, .dir ses) :: es, n :: rest =>
      if m = n then findFile ses rest else findFile es (n :: rest)
  | _ :: _, [] => none

/-- The `for (let entry of entries)` loop of `copyRecursive`, with `acc` the
current children of the destination directory.  A file entry is copied with
`copyFile` (overwrite; error when the destination child is a directory); a
directory entry re-runs `copyRecursive` on the child paths, i.e. `mkdir`
(keep an existing destination directory, error on a file) followed by the
loop on the subdirectory. -/
def copyEntries : List (String × Node) → List (String × Node) →
    Except Unit (List (String × Node))
  | [], acc => .ok acc
  | (name, .file c) :: rest, acc =>
      match lookupEntry acc name with
      | some (.dir _) => .error ()
      | _ => copyEntries rest (setEntry acc name (.file c))
  | (name, .dir ses) :: rest, acc =>
      match
        (match lookupEntry acc name with
         | some (.file _) => Except.error ()
         | some (.dir des) => copyEntries ses des
         | none => copyEntries ses []) with
      | .error e => .error e
      | .ok sub => copyEntries rest (setEntry acc name (.dir sub))

/-- `copyRecursive(src, dest)` as a whole: the destination path may hold
nothing (the directory is then created), an existing directory (merged into),
or a file (`mkdir` fails).  Returns the resulting children of the
destination directory. -/
def copyRecursive (src : List (String × Node)) (dest : Option Node) :
    Except Unit (List (String × Node)) :=
  match dest with
  | some (.file _) => .error ()
  | some (.dir des) => copyEntries src des
  | none => copyEntries src []

/-- First-match choice on optional file contents: what a path resolves to
after a copy, preferring the copied source file. -/
def oalt : Option (List Nat) → Option (List Nat) → Option (List Nat)
  | some c, _ => some c
  | none, b => b

theorem oalt_none_right (a : Option (List Nat)) : oalt a none = a := by
  cases a <;> rfl

theorem findFile_nil_entries (p : List String) : findFile [] p = none := by
  simp [findFile]

theorem findFile_nil_path (es : List (String × Node)) : findFile es [] = none := by
  cases es with
  | nil => simp [findFile]
  | cons e es => obtain ⟨m, node⟩ := e; cases node <;> simp [findFile]

theorem findFile_lookup (es : List (String × Node)) (n : String) (q : List String) :
    findFile es (n :: q) =
      match lookupEntry es n with
      | none => none
      | some (.file c) => if q = [] then some c else none
      | some (.dir ses) => findFile ses q := by
  induction es with
  | nil => simp [findFile, lookupEntry]
  | cons e es ih =>
    obtain ⟨m, node⟩ := e
    rcases eq_or_ne m n with h | h
    · subst h; cases node <;> simp [findFile, lookupEntry]
    · cases node <;> simp [findFile, lookupEntry, h, ih]

theorem lookupEntry_setEntry_self (es : List (String × Node)) (n : String) (v : Node) :
    lookupEntry (setEntry es n v) n = some v := by
  induction es with
  | nil => simp [setEntry, lookupEntry]
  | cons e es ih =>
    obtain ⟨m, w⟩ := e
    rcases eq_or_ne m n with h | h
    · subst h; simp [setEntry, lookupEntry]
    · simp [setEntry, lookupEntry, h, ih]

theorem lookupEntry_setEntry_other (es : List (String × Node)) (n m : String)
    (v : Node) (h : n ≠ m) :
    lookupEntry (setEntry es n v) m = lookupEntry es m := by
  induction es with
  | nil => simp [setEntry, lookupEntry, h]
  | cons e es ih =>
    obtain ⟨m', w⟩ := e
    rcases eq_or_ne m' n with h1 | h1
    · subst h1; simp [setEntry, lookupEntry, h]
    · simp [setEntry, lookupEntry, h1, ih]

theorem lookupEntry_eq_none_of_all (es : List (String × Node)) (n : String)
    (h : es.all (fun e => e.1 != n) = true) : lookupEntry es n = none := by
  induction es with
  | nil => rfl
  | cons e es ih =>
    obtain ⟨m, w⟩ := e
    simp only [List.all_cons, Bool.and_eq_true, bne_iff_ne, ne_eq] at h
    simp [lookupEntry, h.1, ih h.2]

theorem findFile_setEntry_other (es : List (String × Node)) (n m : String)
    (v : Node) (q : List String) (h : n ≠ m) :
    findFile (setEntry es n v) (m :: q) = findFile es (m :: q) := by
  rw [findFile_lookup, findFile_lookup, lookupEntry_setEntry_other es n m v h]

theorem findFile_setEntry_self (es : List (String × Node)) (n : String)
    (v : Node) (q : List String) :
    findFile (setEntry es n v) (n :: q) =
      (match v with
       | .file c => if q = [] then some c else none
       | .dir ses => findFile ses q) := by
  rw [findFile_lookup, lookupEntry_setEntry_self]
  cases v <;> rfl

theorem findFile_cons_self (name : String) (v : Node) (es : List (String × Node))
    (q : List String) :
    findFile ((name, v) :: es) (name :: q) =
      (match v with
       | .file c => if q = [] then some c else none
       | .dir ses => findFile ses q) := by
  cases v <;> simp [findFile]

theorem findFile_cons_other (name : String) (v : Node) (es : List (String × Node))
    (n : String) (q : List String) (h : name ≠ n) :
    findFile ((name, v) :: es) (n :: q) = findFile es (n :: q) := by
  cases v <;> simp [findFile, h]

theorem findFile_all_ne (es : List (String × Node)) (n : String) (q : List String)
    (h : es.all (fun e => e.1 != n) = true) : findFile es (n :: q) = none := by
  rw [findFile_lookup, lookupEntry_eq_none_of_all es n h]

/-- Main lemma about the copy loop: on success, a path resolves in the
written destination directory to the source file's bytes when the source
tree has a file at that path, and to whatever the destination held before
otherwise. -/
theorem copyEntries_findFile :
    ∀ src acc : List (String × Node), wfDir src = true →
    ∀ r, copyEntries src acc = .ok r →
    ∀ p, findFile r p = oalt (findFile src p) (findFile acc p) := by
  intro src acc
  induction src, acc using copyEntries.induct with
  | case1 acc =>
    intro _ r h p
    simp only [copyEntries, Except.ok.injEq] at h
    subst h
    simp [findFile, oalt]
  | case2 name c rest acc entries hlook =>
    intro _ r h p
    simp [copyEntries, hlook] at h
  | case3 name c rest acc hnotdir ih =>
    intro hwf r h p
    simp only [wfDir, Bool.and_eq_true] at hwf
    obtain ⟨hdist, hwfrest⟩ := hwf
    have h' : copyEntries rest (setEntry acc name (.file c)) = .ok r := by
      cases hl : lookupEntry acc name with
      | none => simpa [copyEntries, hl] using h
      | some node =>
        cases node with
        | file c' => simpa [copyEntries, hl] using h
        | dir des => exact (hnotdir des hl).elim
    have IH := ih hwfrest r h'
    cases p with
    | nil => simp [IH, findFile_nil_path, oalt]
    | cons n q =>
      rcases eq_or_ne name n with h2 | h2
      · subst h2
        rw [IH (name :: q), findFile_all_ne rest name q hdist,
          findFile_setEntry_self, findFile_cons_self]
        by_cases hq : q = []
        · simp [hq, oalt]
        · simp only [hq, if_neg hq, oalt]
          rw [findFile_lookup]
          cases hl : lookupEntry acc name with
          | none => rfl
          | some node =>
            cases node with
            | file c' => simp [hq]
            | dir des => exact (hnotdir des hl).elim
      · rw [IH (n :: q), findFile_setEntry_other acc name n _ q h2,
          findFile_cons_other name _ rest n q h2]
  | case4 name ses rest acc e hmatch ih1 ih2 =>
    intro hwf r h p
    simp [copyEntries, hmatch] at h
  | case5 name ses rest acc sub hmatch ih1 ih2 ih3 =>
    intro hwf r h p
    simp only [wfDir, Bool.and_eq_true] at hwf
    obtain ⟨⟨hdist, hwfses⟩, hwfrest⟩ := hwf
    have h' : copyEntries rest (setEntry acc name (.dir sub)) = .ok r := by
      simpa [copyEntries, hmatch] using h
    have IH := ih3 hwfrest r h'
    cases p with
    | nil => simp [IH, findFile_nil_path, oalt]
    | cons n q =>
      rcases eq_or_ne name n with h2 | h2
      · subst h2
        rw [IH (name :: q), findFile_all_ne rest name q hdist,
          findFile_setEntry_self, findFile_cons_self]
        cases hl : lookupEntry acc name with
        | none =>
          rw [hl] at hmatch
          have IHsub := ih2 hwfses sub hmatch q
          have haccv : findFile acc (name :: q) = none := by
            rw [findFile_lookup, hl]
          rw [haccv]
          show findFile sub q = oalt (findFile ses q) none
          rw [IHsub, findFile_nil_entries, oalt_none_right]
        | some node =>
          cases node with
          | file c' => rw [hl] at hmatch; exact absurd hmatch (by simp)
          | dir des =>
            rw [hl] at hmatch
            have IHsub := ih1 des hwfses sub hmatch q
            have haccv : findFile acc (name :: q) = findFile des q := by
              rw [findFile_lookup, hl]
            rw [haccv]
            show findFile sub q = oalt (findFile ses q) (findFile des q)
            exact IHsub
      · rw [IH (n :: q), findFile_setEntry_other acc name n _ q h2,
          findFile_cons_other name _ rest n q h2]

/-- The copy loop succeeds when the source directory is well-formed and no
source entry name collides with an existing destination child. -/
theorem copyEntries_ok :
    ∀ src acc : List (String × Node), wfDir src = true →
    (∀ e ∈ src, lookupEntry acc e.1 = none) →
    ∃ r, copyEntries src acc = .ok r := by
  intro src acc
  induction src, acc using copyEntries.induct with
  | case1 acc =>
    intro _ _
    exact ⟨acc, by simp [copyEntries]⟩
  | case2 name c rest acc entries hlook =>
    intro _ hacc
    have h2 : lookupEntry acc name = none :=
      hacc (name, .file c) (List.mem_cons_self _ _)
    rw [hlook] at h2
    exact Option.noConfusion h2
  | case3 name c rest acc hnotdir ih =>
    intro hwf hacc
    simp only [wfDir, Bool.and_eq_true] at hwf
    obtain ⟨hdist, hwfrest⟩ := hwf
    simp only [List.all_eq_true, bne_iff_ne, ne_eq] at hdist
    have hl : lookupEntry acc name = none :=
      hacc (name, .file c) (List.mem_cons_self _ _)
    have hmain : copyEntries ((name, Node.file c) :: rest) acc =
        copyEntries rest (setEntry acc name (.file c)) := by
      simp [copyEntries, hl]
    rw [hmain]
    apply ih hwfrest
    intro e he
    rw [lookupEntry_setEntry_other acc name e.1 _ (fun hh => hdist e he hh.symm)]
    exact hacc e (List.mem_cons_of_mem _ he)
  | case4 name ses rest acc e hmatch ih1 ih2 =>
    intro hwf hacc
    simp only [wfDir, Bool.and_eq_true] at hwf
    obtain ⟨⟨hdist, hwfses⟩, hwfrest⟩ := hwf
    have hl : lookupEntry acc name = none :=
      hacc (name, .dir ses) (List.mem_cons_self _ _)
    rw [hl] at hmatch
    have hm2 : copyEntries ses [] = Except.error e := hmatch
    obtain ⟨sub, hsub⟩ := ih2 hwfses (by intro e' he'; simp [lookupEntry])
    rw [hsub] at hm2
    exact Except.noConfusion hm2
  | case5 name ses rest acc sub hmatch ih1 ih2 ih3 =>
    intro hwf hacc
    simp only [wfDir, Bool.and_eq_true] at hwf
    obtain ⟨⟨hdist, hwfses⟩, hwfrest⟩ := hwf
    simp only [List.all_eq_true, bne_iff_ne, ne_eq] at hdist
    have hmain : copyEntries ((name, Node.dir ses) :: rest) acc =
        copyEntries rest (setEntry acc name (.dir sub)) := by
      simp [copyEntries, hmatch]
    rw [hmain]
    apply ih3 hwfrest
    intro e he
    rw [lookupEntry_setEntry_other acc name e.1 _ (fun hh => hdist e he hh.symm)]
    exact hacc e (List.mem_cons_of_mem _ he)

/-- C2: copying an existing source tree into a destination path that does not
yet exist succeeds (every needed directory is created by `mkdir` with
`recursive: true`), and the produced destination tree has a file at exactly
the relative paths at which the source tree has one, with identical bytes. -/
theorem copyRecursive_fresh (src : List (String × Node)) (hwf : wfDir src = true) :
    ∃ r, copyRecursive src none = .ok r ∧ ∀ p, findFile r p = findFile src p := by
  obtain ⟨r, hr⟩ := copyEntries_ok src [] hwf (by intro e he; simp [lookupEntry])
  refine ⟨r, hr, fun p => ?_⟩
  rw [copyEntries_findFile src [] hwf r hr p, findFile_nil_entries, oalt_none_right]

/-- Witness for C2 on a two-level concrete tree. -/
theorem copyRecursive_fresh_witness :
    ∃ r, copyRecursive [("assets", Node.dir [("logo.svg", Node.file [3, 4])]),
        ("favicon.ico", Node.file [1, 2])] none = .ok r ∧
      ∀ p, findFile r p =
        findFile [("assets", Node.dir [("logo.svg", Node.file [3, 4])]),
          ("favicon.ico", Node.file [1, 2])] p :=
  copyRecursive_fresh
    [("assets", Node.dir [("logo.svg", Node.file [3, 4])]),
      ("favicon.ico", Node.file [1, 2])] (by simp [wfDir])

/-- C8: the copy is additive, not mirroring: a file already present in the
destination whose relative path has no file in the source tree keeps its
contents unchanged by a completed copy. -/
theorem copyRecursive_additive (src dest r : List (String × Node))
    (hwf : wfDir src = true)
    (h : copyRecursive src (some (Node.dir dest)) = .ok r)
    (p : List String) (hsrc : findFile src p = none) :
    findFile r p = findFile dest p := by
  have h' : copyEntries src dest = .ok r := h
  rw [copyEntries_findFile src dest hwf r h' p, hsrc]
  rfl

/-- Witness for C8: a pre-existing `index.js` in the destination survives a
copy whose source only holds `favicon.ico`. -/
theorem copyRecursive_additive_witness :
    findFile [("index.js", Node.file [9]), ("favicon.ico", Node.file [1])]
        ["index.js"] =
      findFile [("index.js", Node.file [9])] ["index.js"] :=
  copyRecursive_additive [("favicon.ico", Node.file [1])]
    [("index.js", Node.file [9])]
    [("index.js", Node.file [9]), ("favicon.ico", Node.file [1])]
    (by simp [wfDir])
    (by simp [copyRecursive, copyEntries, lookupEntry, setEntry])
    ["index.js"] (by simp [findFile])

/-- C10: `copyFile` overwrites: a source file whose relative path already
holds a file in the destination replaces it, so the destination holds the
source bytes at that path after the copy. -/
theorem copyRecursive_overwrites (src dest r : List (String × Node))
    (hwf : wfDir src = true)
    (h : copyRecursive src (some (Node.dir dest)) = .ok r)
    (p : List String) (c c' : List Nat)
    (hsrc : findFile src p = some c) (_hdest : findFile dest p = some c') :
    findFile r p = some c := by
  have h' : copyEntries src dest = .ok r := h
  rw [copyEntries_findFile src dest hwf r h' p, hsrc]
  rfl

/-- Witness for C10: a `public/app.js` with bytes `[5]` replaces a build
artifact `dist/app.js` with bytes `[6]`. -/
theorem copyRecursive_overwrites_witness :
    findFile [("app.js", Node.file [5])] ["app.js"] = some [5] :=
  copyRecursive_overwrites [("app.js", Node.file [5])]
    [("app.js", Node.file [6])] [("app.js", Node.file [5])]
    (by simp [wfDir])
    (by simp [copyRecursive, copyEntries, lookupEntry, setEntry])
    ["app.js"] [5] [6] (by simp [findFile]) (by simp [findFile])

/-- Outcome of one run of `copyPublicPlugin`'s `onEnd` callback
(`bin/build.js` lines 80-118): the `public/` tree was copied into `dist/`
(carrying the resulting `dist/` children), or the step was skipped because
`public/` does not exist, or a filesystem error was caught and logged by the
callback's `try`/`catch`.  In the error case the partially written
destination state is not tracked further; no claim depends on it. -/
inductive PublicCopyOutcome where
  | copied (dist : List (String × Node)) : PublicCopyOutcome
  | skipped : PublicCopyOutcome
  | errorLogged : PublicCopyOutcome

/-- The `onEnd` callback of `copyPublicPlugin`: `fs.access` reports whether
`public/` exists (`pub` is `none` when it does not); only when it exists is
`copyRecursive(publicDir, distDir)` invoked, so in the `none` case neither
`mkdir` nor any copy runs. -/
def copyPublicOnEnd (pub : Option (List (String × Node)))
    (dist : Option Node) : PublicCopyOutcome :=
  match pub with
  | none => .skipped
  | some es =>
      match copyRecursive es dist with
      | .ok r => .copied r
      | .error _ => .errorLogged

/-- C4: when `public/` does not exist, the copy step completes with a silent
skip for every destination state: no error is raised or logged, and since
`copyRecursive` (and with it `mkdir` and `copyFile`) is never invoked,
nothing is created or written. -/
theorem copyPublicOnEnd_skip (dist : Option Node) :
    copyPublicOnEnd none dist = PublicCopyOutcome.skipped := rfl

/-! ### The build-output reporter

`logServedFiles` (`bin/build.js` lines 162-203) walks `dist/` with the inner
`getFiles`, skips debug-map files, rewrites each path's root segment to the
dev-server origin, joins with forward slashes, and suggests a stylesheet
link for `.css` files and a deferred script tag for everything else.  File
paths are modelled as their separator-separated segment lists; `path.join`
and `file.split(sep)` translate between segments and the joined string. -/

def BUILD_DIRECTORY : String := "dist"

def SERVE_PORT : Nat := 3000

def SERVE_ORIGIN : String := "http://localhost:" ++ toString SERVE_PORT

/-- The host path separator (`path.sep`) on the POSIX hosts the script
targets. -/
def pathSep : String := "/"

/-- JavaScript `s.endsWith(suffix)`: a character-level suffix test. -/
def strEndsWith (s suffix : String) : Bool :=
  suffix.data.isSuffixOf s.data

/-- JavaScript `array.join(sep)`: path segments joined into one string. -/
def joinSegs (sepStr : String) : List String → String
  | [] => ""
  | [s] => s
  | s :: rest => s ++ sepStr ++ joinSegs sepStr rest

/-- `getFiles` (lines 168-175): all files below a directory as a flat list
of segment paths.  Each level is visited in enumeration order; a
subdirectory's files are expanded depth-first in place of the subdirectory
(the `map` produces a nested array which `flat()` splices in place). -/
def getFiles : List (String × Node) → List String → List (List String)
  | [], _ => []
  | (name, .file _) :: es, dirPath => (dirPath ++ [name]) :: getFiles es dirPath
  | (name, .dir ses) :: es, dirPath =>
      getFiles ses (dirPath ++ [name]) ++ getFiles es dirPath

/-- One row of the reporter's table: the served URL and the suggested
inclusion markup. -/
structure ServedFile where
  location : String
  tag : String
deriving DecidableEq

/-- The body of the `files.map` callback (lines 180-198): `undefined`
(`none`) for debug-map files; otherwise replace the root segment with
`SERVE_ORIGIN`, join with `/`, and build a stylesheet link for `.css`
locations and a deferred script tag for the rest. -/
def fileInfo (file : List String) : Option ServedFile :=
  if strEndsWith (joinSegs pathSep file) ".map" then none
  else
    let paths := file.set 0 SERVE_ORIGIN
    let location := joinSegs "/" paths
    let tag :=
      if strEndsWith location ".css" then
        "<link href=\"" ++ location ++ "\" rel=\"stylesheet\" type=\"text/css\"/>"
      else
        "<script defer src=\"" ++ location ++ "\"></script>"
    some { location := location, tag := tag }

/-- `logServedFiles` (lines 162-202) as the list of table rows it prints:
`getFiles(BUILD_DIRECTORY)`, mapped through the callback and filtered by
`Boolean`. -/
def logServedFiles (dist : List (String × Node)) : List ServedFile :=
  (((getFiles dist [BUILD_DIRECTORY]).map fileInfo).filterMap id)

/-- C3: on the output file list `["app.js", "app.js.map", "styles.css"]` the
reporter produces exactly two rows, a deferred-script suggestion for
`http://localhost:3000/app.js` and a stylesheet-link suggestion for
`http://localhost:3000/styles.css`; in general every `.map` path is dropped,
every remaining `.css` location gets a stylesheet link and every other
location a deferred script tag. -/
theorem logServedFiles_spec :
    logServedFiles [("app.js", Node.file [0]), ("app.js.map", Node.file [1]),
        ("styles.css", Node.file [2])] =
      [{ location := "http://localhost:3000/app.js",
         tag := "<script defer src=\"http://localhost:3000/app.js\"></script>" },
       { location := "http://localhost:3000/styles.css",
         tag := "<link href=\"http://localhost:3000/styles.css\" rel=\"stylesheet\" type=\"text/css\"/>" }] ∧
    (∀ f, strEndsWith (joinSegs pathSep f) ".map" = true → fileInfo f = none) ∧
    (∀ f, strEndsWith (joinSegs pathSep f) ".map" = false →
      strEndsWith (joinSegs "/" (f.set 0 SERVE_ORIGIN)) ".css" = true →
      fileInfo f = some (ServedFile.mk (joinSegs "/" (f.set 0 SERVE_ORIGIN))
        ("<link href=\"" ++ joinSegs "/" (f.set 0 SERVE_ORIGIN) ++
          "\" rel=\"stylesheet\" type=\"text/css\"/>"))) ∧
    (∀ f, strEndsWith (joinSegs pathSep f) ".map" = false →
      strEndsWith (joinSegs "/" (f.set 0 SERVE_ORIGIN)) ".css" = false →
      fileInfo f = some (ServedFile.mk (joinSegs "/" (f.set 0 SERVE_ORIGIN))
        ("<script defer src=\"" ++ joinSegs "/" (f.set 0 SERVE_ORIGIN) ++
          "\"></script>"))) := by
  refine ⟨?_, ?_, ?_, ?_⟩
  · simp only [logServedFiles, getFiles, BUILD_DIRECTORY]
    decide
  · intro f h
    simp [fileInfo, h]
  · intro f h1 h2
    simp [fileInfo, h1, h2]
  · intro f h1 h2
    simp [fileInfo, h1, h2]

/-- Witness for C3's general clauses at the three concrete paths. -/
theorem logServedFiles_spec_witness :
    fileInfo ["dist", "app.js.map"] = none ∧
    fileInfo ["dist", "styles.css"] =
      some (ServedFile.mk (joinSegs "/" (["dist", "styles.css"].set 0 SERVE_ORIGIN))
        ("<link href=\"" ++ joinSegs "/" (["dist", "styles.css"].set 0 SERVE_ORIGIN) ++
          "\" rel=\"stylesheet\" type=\"text/css\"/>")) ∧
    fileInfo ["dist", "app.js"] =
      some (ServedFile.mk (joinSegs "/" (["dist", "app.js"].set 0 SERVE_ORIGIN))
        ("<script defer src=\"" ++ joinSegs "/" (["dist", "app.js"].set 0 SERVE_ORIGIN) ++
          "\"></script>")) :=
  ⟨logServedFiles_spec.2.1 ["dist", "app.js.map"] (by decide),
   logServedFiles_spec.2.2.1 ["dist", "styles.css"] (by decide) (by decide),
   logServedFiles_spec.2.2.2 ["dist", "app.js"] (by decide) (by decide)⟩

/-- Membership characterisation of `getFiles`: the listed paths are exactly
the prefix followed by a relative path holding a file in the tree; in
particular directories themselves are never listed. -/
theorem getFiles_mem :
    ∀ es dirPath, wfDir es = true →
    ∀ p, (p ∈ getFiles es dirPath ↔
      ∃ q c, p = dirPath ++ q ∧ findFile es q = some c) := by
  intro es dirPath
  induction es, dirPath using getFiles.induct with
  | case1 dirPath =>
    intro _ p
    simp [getFiles, findFile_nil_entries]
  | case2 name c es dirPath ih =>
    intro hwf p
    simp only [wfDir, Bool.and_eq_true] at hwf
    obtain ⟨hdist, hwfes⟩ := hwf
    simp only [getFiles, List.mem_cons]
    constructor
    · rintro (rfl | hp)
      · refine ⟨[name], c, rfl, ?_⟩
        simp [findFile]
      · obtain ⟨q, c', hpq, hf⟩ := (ih hwfes p).mp hp
        refine ⟨q, c', hpq, ?_⟩
        cases q with
        | nil => rw [findFile_nil_path] at hf; exact Option.noConfusion hf
        | cons n rest =>
          rcases eq_or_ne name n with h2 | h2
          · subst h2
            rw [findFile_all_ne es name rest hdist] at hf
            exact Option.noConfusion hf
          · rw [findFile_cons_other name _ es n rest h2]
            exact hf
    · rintro ⟨q, c', hpq, hf⟩
      cases q with
      | nil => rw [findFile_nil_path] at hf; exact Option.noConfusion hf
      | cons n rest =>
        rcases eq_or_ne name n with h2 | h2
        · subst h2
          rw [findFile_cons_self] at hf
          by_cases hrest : rest = []
          · subst hrest
            left
            exact hpq
          · simp [hrest] at hf
        · rw [findFile_cons_other name _ es n rest h2] at hf
          right
          exact (ih hwfes p).mpr ⟨n :: rest, c', hpq, hf⟩
  | case3 name ses es dirPath ih1 ih2 =>
    intro hwf p
    simp only [wfDir, Bool.and_eq_true] at hwf
    obtain ⟨⟨hdist, hwfses⟩, hwfes⟩ := hwf
    simp only [getFiles, List.mem_append]
    constructor
    · rintro (hp | hp)
      · obtain ⟨q, c', hpq, hf⟩ := (ih1 hwfses p).mp hp
        refine ⟨name :: q, c', ?_, ?_⟩
        · rw [hpq, List.append_assoc]
          rfl
        · rw [findFile_cons_self]
          exact hf
      · obtain ⟨q, c', hpq, hf⟩ := (ih2 hwfes p).mp hp
        refine ⟨q, c', hpq, ?_⟩
        cases q with
        | nil => rw [findFile_nil_path] at hf; exact Option.noConfusion hf
        | cons n rest =>
          rcases eq_or_ne name n with h2 | h2
          · subst h2
            rw [findFile_all_ne es name rest hdist] at hf
            exact Option.noConfusion hf
          · rw [findFile_cons_other name _ es n rest h2]
            exact hf
    · rintro ⟨q, c', hpq, hf⟩
      cases q with
      | nil => rw [findFile_nil_path] at hf; exact Option.noConfusion hf
      | cons n rest =>
        rcases eq_or_ne name n with h2 | h2
        · subst h2
          rw [findFile_cons_self] at hf
          left
          refine (ih1 hwfses p).mpr ⟨rest, c', ?_, hf⟩
          rw [hpq, List.append_assoc]
          rfl
        · rw [findFile_cons_other name _ es n rest h2] at hf
          right
          exact (ih2 hwfes p).mpr ⟨n :: rest, c', hpq, hf⟩

/-- C6: the reporter's listing is a flat sequence of exactly the relative
paths holding files (directories are traversed, never listed), each level in
enumeration order with a directory's files expanded depth-first in its
place; and each non-map listed path becomes a URL by replacing the root
segment with `SERVE_ORIGIN` and joining all segments with forward slashes. -/
theorem getFiles_spec :
    (∀ es dirPath, wfDir es = true → ∀ p,
      (p ∈ getFiles es dirPath ↔
        ∃ q c, p = dirPath ++ q ∧ findFile es q = some c)) ∧
    (∀ (name : String) (c : List Nat) es dirPath,
      getFiles ((name, Node.file c) :: es) dirPath =
        (dirPath ++ [name]) :: getFiles es dirPath) ∧
    (∀ (name : String) ses es dirPath,
      getFiles ((name, Node.dir ses) :: es) dirPath =
        getFiles ses (dirPath ++ [name]) ++ getFiles es dirPath) ∧
    (∀ (root : String) (rest : List String),
      strEndsWith (joinSegs pathSep (root :: rest)) ".map" = false →
      ∃ t, fileInfo (root :: rest) =
        some (ServedFile.mk (joinSegs "/" (SERVE_ORIGIN :: rest)) t)) := by
  refine ⟨getFiles_mem, ?_, ?_, ?_⟩
  · intro name c es dirPath
    simp [getFiles]
  · intro name ses es dirPath
    simp [getFiles]
  · intro root rest h
    simp only [fileInfo, h, Bool.false_eq_true, if_false, List.set_cons_zero]
    exact ⟨_, rfl⟩

/-- Witness for C6 on a one-file tree and its path. -/
theorem getFiles_spec_witness :
    (["dist", "app.js"] ∈ getFiles [("app.js", Node.file [0])] ["dist"] ↔
      ∃ q c, ["dist", "app.js"] = ["dist"] ++ q ∧
        findFile [("app.js", Node.file [0])] q = some c) ∧
    (∃ t, fileInfo ["dist", "app.js"] =
      some (ServedFile.mk (joinSegs "/" (SERVE_ORIGIN :: ["app.js"])) t)) :=
  ⟨getFiles_spec.1 [("app.js", Node.file [0])] ["dist"] (by simp [wfDir])
      ["dist", "app.js"],
   getFiles_spec.2.2.2 "dist" ["app.js"] (by decide)⟩

/-! ### Plugin registration and post-build hooks -/

/-- The four plugins wired into the esbuild context. -/
inductive PluginName where
  | sass : PluginName
  | copyPublic : PluginName
  | generatePackageJson : PluginName
  | copyReadme : PluginName
deriving DecidableEq

/-- The `plugins` array of the esbuild context (`bin/build.js` lines
132-136): `sassPlugin()` and `copyPublicPlugin()` unconditionally, plus
`generatePackageJsonPlugin()` and `copyReadmePlugin()` exactly when
`PRODUCTION` holds.  Every registered plugin's `onEnd` hook runs after each
completed (re)build. -/
def plugins (production : Bool) : List PluginName :=
  [PluginName.sass, PluginName.copyPublic] ++
    (if production then [PluginName.generatePackageJson, PluginName.copyReadme]
     else [])

/-- C9: the static-asset copier is registered in both modes — so development
rebuilds also copy `public/` — while the manifest post-processor and the
README copier are registered exactly in production mode. -/
theorem plugins_registration :
    (∀ production, PluginName.copyPublic ∈ plugins production) ∧
    (∀ production,
      (PluginName.generatePackageJson ∈ plugins production ↔ production = true)) ∧
    (∀ production,
      (PluginName.copyReadme ∈ plugins production ↔ production = true)) := by
  refine ⟨?_, ?_, ?_⟩ <;> intro production <;> cases production <;> decide

/-- Outcome of one post-build hook: it completed with a value, or its error
was caught at the hook's own call site and written to the error log. -/
inductive HookResult (α : Type) where
  | done (a : α) : HookResult α
  | errorLogged : HookResult α

/-- The `onEnd` callback of `generatePackageJsonPlugin` (`bin/build.js`
lines 27-52): read and parse the root `package.json` (`read` is the combined
result of `fs.readFile` and `JSON.parse`, an `Except.error` when the file is
missing or not valid JSON), transform it and write it to
`dist/package.json`; the callback's `try`/`catch` turns any failure into a
`console.error` log and nothing else. -/
def generatePackageJsonOnEnd (read : Except Unit Manifest) : HookResult Manifest :=
  match read with
  | .error _ => .errorLogged
  | .ok m => .done (transformManifest m)

/-- The `onEnd` callback of `copyReadmePlugin` (lines 58-73): copy
`README.md` into `dist/` (`readme` is `none` when the file cannot be read;
the `.catch` logs the failure). -/
def copyReadmeOnEnd (readme : Option (List Nat)) : HookResult (List Nat) :=
  match readme with
  | none => .errorLogged
  | some c => .done c

/-- The three production post-build hooks together: each esbuild `onEnd`
callback runs on its own inputs with its own local failure containment, so
the triple is computed componentwise. -/
def productionPostBuild (read : Except Unit Manifest)
    (readme : Option (List Nat)) (pub : Option (List (String × Node)))
    (dist : Option Node) :
    HookResult Manifest × HookResult (List Nat) × PublicCopyOutcome :=
  (generatePackageJsonOnEnd read, copyReadmeOnEnd readme, copyPublicOnEnd pub dist)

/-- C5: a failed manifest read or parse is contained in the manifest hook:
its outcome is `errorLogged` (caught at its call site, logged, not
propagated), and the README-copy and public-copy hooks produce exactly their
own results, unaffected by the manifest hook's input. -/
theorem generatePackageJson_error_contained :
    (∀ readme pub dist,
      productionPostBuild (Except.error ()) readme pub dist =
        (HookResult.errorLogged, copyReadmeOnEnd readme, copyPublicOnEnd pub dist)) ∧
    (∀ read read' readme pub dist,
      (productionPostBuild read readme pub dist).2 =
        (productionPostBuild read' readme pub dist).2) :=
  ⟨fun _ _ _ => rfl, fun _ _ _ _ _ => rfl⟩

end BuildScript
